import Mathlib

/-!
Verification of the Green Hydrogen Credit ledger (`blockchain/green_chain.py`)
and its real-time event subsystem (`blockchain/realtime_chain.py`).

The ledger is shallowly embedded: a block is a record of the five hashed
fields plus the stored hash field, the SHA-256 digest function is abstracted
as a parameter `H : HashFn` (the code only ever treats the digest as an
opaque hex string tested for a `'0' * difficulty` leading run), and the
potentially nonterminating proof-of-work loop is given explicit fuel, so
that a call that would spin forever in Python is modelled by `none`.
Python dicts that are iterated in insertion order (`self.certificates`) are
modelled as association lists, and the `retired_certificates` set as a
duplicate-free insertion-ordered list.
-/

/-- The certificate-payload fields read out of the caller's `data` dict with
`data.get(...)` in `issue_certificate`; a missing key yields `None`,
modelled by `Option`. Numeric fields are modelled as `Nat`. -/
structure CertInput where
  seller_id : Option Nat
  facility_name : Option String
  hydrogen_weight_kg : Option Nat
  tokens_generated : Option Nat
  renewable_source : Option String
  production_date : Option String
  location : Option String
  certification_type : Option String
  price_per_token : Option Nat
deriving DecidableEq, Repr

/-- The block payload built by `issue_certificate`: the caller's fields plus
the generated `certificate_id` and the `issued_at` timestamp (its constant
fields `type`, `status`, `blockchain_version` are carried by the
`Payload.certificate` constructor). -/
structure CertData where
  certificate_id : String
  fields : CertInput
  issued_at : String
deriving DecidableEq, Repr

/-- The three payload shapes produced by the ledger: the genesis payload, a
`hydrogen_credit_certificate` payload, and a `certificate_retirement`
payload (with its `certificate_id`, `original_hash` and `retired_at`
fields; the constant `type`/`status`/`reason` fields are carried by the
constructor). -/
inductive Payload
  | genesis (ts : String)
  | certificate (cd : CertData)
  | retirement (certificate_id : String) (original_hash : String) (retired_at : String)
deriving DecidableEq, Repr

/-- A block record: the five fields fed to `calculate_hash` plus the stored
`hash` field (set from `calculate_hash` on construction, but overridden
with the persisted value by `load_blockchain` / `import_chain`). -/
structure Block where
  index : Nat
  timestamp : Nat
  data : Payload
  previous_hash : String
  nonce : Nat
  hash : String
deriving DecidableEq, Repr

/-- The digest function abstracting `hashlib.sha256(json.dumps(...))`: it
sees exactly the five fields serialized by `Block.calculate_hash` and
returns the hex digest string. -/
def HashFn : Type := Nat → Nat → Payload → String → Nat → String

/-- `Block.calculate_hash`: hash the five content fields (never the stored
`hash` field). -/
def calculate_hash (H : HashFn) (b : Block) : String :=
  H b.index b.timestamp b.data b.previous_hash b.nonce

/-- `Block.__init__`: build a block and set its `hash` from
`calculate_hash`. -/
def mkBlock (H : HashFn) (index timestamp : Nat) (data : Payload)
    (previous_hash : String) (nonce : Nat) : Block :=
  { index := index, timestamp := timestamp, data := data,
    previous_hash := previous_hash, nonce := nonce,
    hash := H index timestamp data previous_hash nonce }

/-- `hash.startswith('0' * difficulty)` on the character list of the digest. -/
def startsWithZeros : Nat → List Char → Bool
  | 0, _ => true
  | _ + 1, [] => false
  | d + 1, c :: cs => c == '0' && startsWithZeros d cs

/-- The proof-of-work test used by `mine_block` and `is_valid_block`. -/
def powOk (d : Nat) (h : String) : Bool := startsWithZeros d h.data

/-- Number of leading `'0'` characters of a digest (used to state the
"exactly `difficulty` leading zeros" spec sentence). -/
def countZeros : List Char → Nat
  | [] => 0
  | c :: cs => if c = '0' then countZeros cs + 1 else 0

/-- A certificate-index entry: `{'hash', 'block_index', 'data', 'status'}`. -/
structure CertInfo where
  hash : String
  block_index : Nat
  data : Payload
  status : String
deriving DecidableEq, Repr

/-- `GreenChain` in-memory state: the block list, the configured difficulty,
the insertion-ordered certificate index and the retired-id set. -/
structure GreenChain where
  chain : List Block
  difficulty : Nat
  certificates : List (String × CertInfo)
  retired_certificates : List String
deriving DecidableEq, Repr

/-- `certificate_id in self.certificates` / `self.certificates[cid]`:
first-entry lookup in the association list. -/
def lookupCert : List (String × CertInfo) → String → Option CertInfo
  | [], _ => none
  | (k, v) :: rest, cid => if k = cid then some v else lookupCert rest cid

/-- `self.certificates[cid] = info`: insert-or-update preserving insertion
order (Python dict assignment). -/
def insertCert : List (String × CertInfo) → String → CertInfo → List (String × CertInfo)
  | [], cid, info => [(cid, info)]
  | (k, v) :: rest, cid, info =>
      if k = cid then (k, info) :: rest else (k, v) :: insertCert rest cid info

/-- `self.certificates[cid]['status'] = s`: update the status of the entry
keyed `cid`, keeping every other field and the order. -/
def setStatus : List (String × CertInfo) → String → String → List (String × CertInfo)
  | [], _, _ => []
  | (k, v) :: rest, cid, s =>
      if k = cid then (k, { v with status := s }) :: rest
      else (k, v) :: setStatus rest cid s

/-- `self.retired_certificates.add(cid)`: set insert (no-op when present). -/
def addRetired (l : List String) (cid : String) : List String :=
  if cid ∈ l then l else l ++ [cid]

/-- The first-match scan `for cert_id, cert_info in self.certificates.items():
if cert_info['hash'] == certificate_hash: ...` shared by `verify_certificate`
and `retire_certificate`. -/
def findByHash (certs : List (String × CertInfo)) (h : String) : Option (String × CertInfo) :=
  certs.find? fun p => p.2.hash == h

/-- `get_latest_block`: `self.chain[-1] if self.chain else None`. -/
def get_latest_block (st : GreenChain) : Option Block :=
  st.chain.get? (st.chain.length - 1)

/-- The `while not new_block.hash.startswith('0' * difficulty)` nonce search
of `mine_block`, with explicit fuel (`none` = the Python loop has not
terminated within `fuel` candidate nonces). -/
def mineLoop (H : HashFn) (d : Nat) (index ts : Nat) (data : Payload) (prev : String) :
    Nat → Nat → Option Block
  | 0, _ => none
  | fuel + 1, nonce =>
      let b := mkBlock H index ts data prev nonce
      if powOk d b.hash then some b
      else mineLoop H d index ts data prev fuel (nonce + 1)

/-- `GreenChain.mine_block`: seal `data` on top of the current tip. -/
def mine_block (H : HashFn) (st : GreenChain) (data : Payload) (ts fuel : Nat) : Option Block :=
  match get_latest_block st with
  | some prev => mineLoop H st.difficulty (prev.index + 1) ts data prev.hash fuel 0
  | none => mineLoop H st.difficulty 0 ts data "0" fuel 0

/-- `GreenChain.is_valid_block`. -/
def is_valid_block (H : HashFn) (st : GreenChain) (b : Block) : Bool :=
  if b.index = 0 then true
  else if st.chain.length ≤ b.index - 1 then false
  else
    match st.chain.get? (b.index - 1) with
    | none => false
    | some prev =>
        if b.previous_hash ≠ prev.hash then false
        else if b.hash ≠ calculate_hash H b then false
        else powOk st.difficulty b.hash

/-- `GreenChain.is_chain_valid`: `for i in range(1, len(chain)):
if not is_valid_block(chain[i]): return False`. -/
def is_chain_valid (H : HashFn) (st : GreenChain) : Bool :=
  (List.range st.chain.length).all fun i =>
    i == 0 ||
      match st.chain.get? i with
      | some b => is_valid_block H st b
      | none => true

/-- `GreenChain.add_block`: validate, then append (and persist); returns the
success flag together with the updated in-memory state. -/
def add_block (H : HashFn) (st : GreenChain) (b : Block) : Bool × GreenChain :=
  if is_valid_block H st b then (true, { st with chain := st.chain ++ [b] })
  else (false, st)

/-- The genesis payload built by `create_genesis_block`. -/
def genesisPayload (iso : String) : Payload := Payload.genesis iso

/-- The genesis block: `Block(0, time.time(), genesis_data, "0")` (nonce 0,
no proof-of-work search). -/
def create_genesis_block (H : HashFn) (gts : Nat) (iso : String) : Block :=
  mkBlock H 0 gts (genesisPayload iso) "0" 0

/-- A freshly initialized ledger with no persisted document: empty indices
and the single genesis block appended by `create_genesis_block`. -/
def freshChain (H : HashFn) (d gts : Nat) (iso : String) : GreenChain :=
  { chain := [create_genesis_block H gts iso], difficulty := d,
    certificates := [], retired_certificates := [] }

/-- The certificate payload assembled by `issue_certificate` from the
generated id, the caller's fields and the `issued_at` timestamp. -/
def certPayload (certId : String) (input : CertInput) (issuedAt : String) : Payload :=
  Payload.certificate { certificate_id := certId, fields := input, issued_at := issuedAt }

/-- Outcome of `issue_certificate`: normal return, raised exception (with
the state at raise time), or a proof-of-work loop that has not terminated. -/
inductive IssueResult
  | ok (h : String) (st : GreenChain)
  | err (msg : String) (st : GreenChain)
  | diverge
deriving DecidableEq, Repr

/-- Outcome of `retire_certificate`: the returned Bool with the resulting
state, or a proof-of-work loop that has not terminated. -/
inductive RetireResult
  | ret (b : Bool) (st : GreenChain)
  | diverge
deriving DecidableEq, Repr

/-- `GreenChain.issue_certificate`; `certId` stands for the generated
`str(uuid.uuid4())`, `issuedAt` for `datetime.now(...).isoformat()` and `ts`
for `time.time()`.  Note the translation of the source: there is no field
validation step — the payload is built from `data.get(...)` directly. -/
def issue_certificate (H : HashFn) (st : GreenChain) (certId : String) (input : CertInput)
    (issuedAt : String) (ts fuel : Nat) : IssueResult :=
  if (lookupCert st.certificates certId).isSome then
    IssueResult.err "Certificate ID already exists - duplicate detected" st
  else
    let cd := certPayload certId input issuedAt
    match mine_block H st cd ts fuel with
    | none => IssueResult.diverge
    | some nb =>
        match add_block H st nb with
        | (true, st1) =>
            IssueResult.ok nb.hash
              { st1 with certificates :=
                  (insertCert st1.certificates certId
                    { hash := nb.hash, block_index := nb.index, data := cd, status := "active" }) }
        | (false, st1) =>
            IssueResult.err "Failed to add certificate block to blockchain" st1

/-- Error payloads returned by the verify operations. -/
inductive VerifyErr
  | retired
  | notInChain
  | notFound
deriving DecidableEq, Repr

/-- `GreenChain.verify_certificate`. -/
def verify_certificate (st : GreenChain) (certificate_hash : String) :
    Bool × (Payload ⊕ VerifyErr) :=
  match findByHash st.certificates certificate_hash with
  | some (cert_id, cert_info) =>
      if cert_id ∈ st.retired_certificates then (false, Sum.inr VerifyErr.retired)
      else
        match st.chain.get? cert_info.block_index with
        | some b =>
            if b.hash = certificate_hash then (true, Sum.inl cert_info.data)
            else (false, Sum.inr VerifyErr.notInChain)
        | none => (false, Sum.inr VerifyErr.notInChain)
  | none => (false, Sum.inr VerifyErr.notFound)

/-- `GreenChain.verify_certificate_by_id`. -/
def verify_certificate_by_id (st : GreenChain) (certificate_id : String) :
    Bool × (Payload ⊕ VerifyErr) :=
  match lookupCert st.certificates certificate_id with
  | none => (false, Sum.inr VerifyErr.notFound)
  | some cert_info =>
      if certificate_id ∈ st.retired_certificates then (false, Sum.inr VerifyErr.retired)
      else
        match st.chain.get? cert_info.block_index with
        | some b =>
            if b.hash = cert_info.hash then (true, Sum.inl cert_info.data)
            else (false, Sum.inr VerifyErr.notInChain)
        | none => (false, Sum.inr VerifyErr.notInChain)

/-- The two index mutations done by `retire_certificate` before it mines a
retirement block: add the id to the retired set and flip the index entry's
status. -/
def retireMark (st : GreenChain) (cert_id : String) : GreenChain :=
  { st with
    retired_certificates := addRetired st.retired_certificates cert_id,
    certificates := setStatus st.certificates cert_id "retired" }

/-- `GreenChain.retire_certificate`; `retiredAt` stands for the retirement
timestamp string, `ts` for the mined block's `time.time()`. The retired-set
and status mutations happen before the retirement block is mined, exactly
as in the source. -/
def retire_certificate (H : HashFn) (st : GreenChain) (certificate_hash : String)
    (retiredAt : String) (ts fuel : Nat) : RetireResult :=
  match findByHash st.certificates certificate_hash with
  | some (cert_id, _) =>
      if cert_id ∈ st.retired_certificates then RetireResult.ret false st
      else
        let st1 := retireMark st cert_id
        let pd := Payload.retirement cert_id certificate_hash retiredAt
        match mine_block H st1 pd ts fuel with
        | none => RetireResult.diverge
        | some rb =>
            match add_block H st1 rb with
            | (true, st2) => RetireResult.ret true st2
            | (false, st2) => RetireResult.ret false st2
  | none => RetireResult.ret false st

/-- The persisted document written by `save_blockchain`: the serialized
block array plus the certificate and retired-set accelerators (the
redundant `last_updated` / totals fields are derived and omitted). -/
structure SavedDoc where
  chain : List Block
  certificates : List (String × CertInfo)
  retired_certificates : List String
deriving DecidableEq, Repr

/-- `save_blockchain`: serialize the in-memory state (`Block.to_dict` keeps
all six fields, including the stored hash). -/
def save_doc (st : GreenChain) : SavedDoc :=
  { chain := st.chain, certificates := st.certificates,
    retired_certificates := st.retired_certificates }

/-- Block reconstruction done by `load_blockchain` / `import_chain`:
`Block(...)` recomputes the hash, which is then overridden with the stored
`hash` field. -/
def reconstructBlock (H : HashFn) (bd : Block) : Block :=
  { mkBlock H bd.index bd.timestamp bd.data bd.previous_hash bd.nonce with hash := bd.hash }

/-- `load_blockchain` on an existing document: rebuild the block list and
trust the stored certificate / retired-set accelerators as-is. -/
def load_blockchain (H : HashFn) (doc : SavedDoc) (difficulty : Nat) : GreenChain :=
  { chain := doc.chain.map (reconstructBlock H), difficulty := difficulty,
    certificates := doc.certificates,
    retired_certificates := doc.retired_certificates }

/-- `GreenChain.export_chain`: the serialized block array. -/
def export_chain (st : GreenChain) : List Block := st.chain

/-- One iteration of the index-rebuild loop of `import_chain`: a
certificate block (re)inserts its index entry as `active`; a retirement
block adds the id to the retired set and, if the certificate exists, marks
it `retired`. -/
def importStep (acc : List (String × CertInfo) × List String) (b : Block) :
    List (String × CertInfo) × List String :=
  match b.data with
  | Payload.certificate cd =>
      (insertCert acc.1 cd.certificate_id
        { hash := b.hash, block_index := b.index, data := b.data, status := "active" }, acc.2)
  | Payload.retirement cid _ _ =>
      ((if (lookupCert acc.1 cid).isSome then setStatus acc.1 cid "retired" else acc.1),
       addRetired acc.2 cid)
  | Payload.genesis _ => acc

/-- The full index rebuild of `import_chain`: replay the block sequence
starting from empty indices. -/
def rebuildIndices (chain : List Block) : List (String × CertInfo) × List String :=
  chain.foldl importStep ([], [])

/-- `GreenChain.import_chain`: replace the chain by the reconstructed
imported blocks and rebuild both indices strictly by replay. -/
def import_chain (H : HashFn) (st : GreenChain) (chain_data : List Block) :
    Bool × GreenChain :=
  let newChain := chain_data.map (reconstructBlock H)
  let idx := rebuildIndices newChain
  (true,
    { st with
        chain := newChain
        certificates := idx.1
        retired_certificates := idx.2 })

/-- In-place update of the block at position `i` of a persisted block
array (the tampering experiments of the spec's §8 mutate one stored
block's field and reload). -/
def updateAt : List Block → Nat → (Block → Block) → List Block
  | [], _, _ => []
  | b :: bs, 0, f => f b :: bs
  | b :: bs, n + 1, f => b :: updateAt bs n f

/-- Tamper with one block of a persisted document. -/
def mutateDoc (doc : SavedDoc) (i : Nat) (f : Block → Block) : SavedDoc :=
  { doc with chain := updateAt doc.chain i f }

/-- A successful ledger write: a certificate issuance that returned a hash,
or a certificate retirement that returned `True`.  (`certId`, the
timestamps and the fuel are the call's environment.) -/
inductive Step (H : HashFn) : GreenChain → GreenChain → Prop
  | issue {st st' : GreenChain} {certId : String} {input : CertInput} {issuedAt : String}
      {ts fuel : Nat} {h : String}
      (heq : issue_certificate H st certId input issuedAt ts fuel = IssueResult.ok h st') :
      Step H st st'
  | retire {st st' : GreenChain} {h retiredAt : String} {ts fuel : Nat}
      (heq : retire_certificate H st h retiredAt ts fuel = RetireResult.ret true st') :
      Step H st st'

/-- A state reachable from some freshly initialized ledger by a sequence of
successful issue / retire calls. -/
def Reachable (H : HashFn) (st : GreenChain) : Prop :=
  ∃ d gts : Nat, ∃ iso : String,
    Relation.ReflTransGen (Step H) (freshChain H d gts iso) st

/-! ### Real-time event subsystem (`realtime_chain.py`) -/

/-- A structured event as built by the `emit_*` methods: its `type` tag
(`event.get('type')`, hence `Option`), its target room, and an opaque data
payload. -/
structure RTEvent where
  etype : Option String
  room : String
  payload : String
deriving DecidableEq, Repr

/-- A rolling-history record: `{'timestamp': ..., 'event': event}` as
appended by `_broadcast_event`. -/
structure HistEntry where
  timestamp : String
  event : RTEvent
deriving DecidableEq, Repr

/-- The history bookkeeping of `_broadcast_event`: append the dispatched
event, then keep only the last 1000 records (`events[-1000:]`). -/
def broadcast_event (hist : List HistEntry) (ts : String) (e : RTEvent) : List HistEntry :=
  let h1 := hist ++ [{ timestamp := ts, event := e }]
  if 1000 < h1.length then h1.drop (h1.length - 1000) else h1

/-- Python's `l[-limit:]` for a non-negative `limit`: for `limit = 0` the
slice is `l[0:]`, i.e. the whole list; otherwise the last `limit`
elements. -/
def tailSlice (l : List HistEntry) (limit : Nat) : List HistEntry :=
  if limit = 0 then l else l.drop (l.length - limit)

/-- The truthiness filter `if event_type:` of `get_event_history`: `None`
and the empty string select no filtering. -/
def filterHistory (hist : List HistEntry) : Option String → List HistEntry
  | none => hist
  | some t => if t = "" then hist else hist.filter fun e => e.event.etype == some t

/-- `RealTimeBlockchain.get_event_history`:
`events[-limit:] if events else []`. -/
def get_event_history (hist : List HistEntry) (event_type : Option String) (limit : Nat) :
    List HistEntry :=
  let events := filterHistory hist event_type
  if events.isEmpty then [] else tailSlice events limit

/-! ### Concrete instances used by witnesses and counterexamples -/

/-- A degenerate digest function whose every digest is `"0"`; it satisfies
any difficulty ≤ 1, so mining succeeds at nonce 0. -/
def demoHash : HashFn := fun _ _ _ _ _ => "0"

/-- A digest function whose every digest is `"f"` (no leading zero). -/
def cexHashF : HashFn := fun _ _ _ _ _ => "f"

/-- A digest function whose every digest is `"00"` (two leading zeros). -/
def cexHashZZ : HashFn := fun _ _ _ _ _ => "00"

/-- A payload-sensitive digest function: certificate payloads hash to
`"0"`, anything else to `"1"`; used to exhibit a block whose recomputed
hash no longer matches its stored hash field. -/
def cexHashC6 : HashFn := fun _ _ d _ _ =>
  match d with
  | Payload.certificate _ => "0"
  | _ => "1"

/-- The state carried by an `IssueResult`, with a default for `diverge`. -/
def IssueResult.stateOr (r : IssueResult) (d : GreenChain) : GreenChain :=
  match r with
  | IssueResult.ok _ s => s
  | IssueResult.err _ s => s
  | IssueResult.diverge => d

/-- The hash carried by a successful `IssueResult`. -/
def IssueResult.hashOr (r : IssueResult) : String :=
  match r with
  | IssueResult.ok h _ => h
  | _ => ""

/-- The state carried by a `RetireResult`, with a default for `diverge`. -/
def RetireResult.stateOr (r : RetireResult) (d : GreenChain) : GreenChain :=
  match r with
  | RetireResult.ret _ s => s
  | RetireResult.diverge => d

/-- An all-fields-missing certificate input (every `data.get(...)` is
`None`). -/
def emptyInput : CertInput :=
  { seller_id := none, facility_name := none, hydrogen_weight_kg := none,
    tokens_generated := none, renewable_source := none, production_date := none,
    location := none, certification_type := none, price_per_token := none }

/-- A digest function that separates the untampered genesis payload from
everything else; used to exhibit undetected genesis tampering. -/
def cexHashC3 : HashFn := fun _ _ d _ _ =>
  match d with
  | Payload.genesis "g" => "0"
  | _ => "1"

/-- A fresh demo ledger at difficulty 0 (mining succeeds at nonce 0). -/
def demoFresh : GreenChain := freshChain demoHash 0 0 "g"

/-- One issuance on the fresh demo ledger. -/
def demoIssue : IssueResult := issue_certificate demoHash demoFresh "c" emptyInput "t" 1 1

/-- The demo ledger after one issuance. -/
def demoSt1 : GreenChain := demoIssue.stateOr demoFresh

/-- The certificate-index entry recorded by the demo issuance. -/
def demoInfo1 : CertInfo :=
  { hash := "0", block_index := 1, data := certPayload "c" emptyInput "t", status := "active" }

/-- Retiring the demo certificate. -/
def demoRetire : RetireResult := retire_certificate demoHash demoSt1 "0" "r" 2 1

/-- The demo ledger after issuing and retiring one certificate. -/
def demoSt2 : GreenChain := demoRetire.stateOr demoSt1

/-- A fresh ledger over `cexHashC3`. -/
def c3Fresh : GreenChain := freshChain cexHashC3 0 0 "g"

/-- The `cexHashC3` ledger reloaded after the persisted genesis block's
payload was overwritten (stored hash field kept). -/
def c3Tampered : GreenChain :=
  load_blockchain cexHashC3
    (mutateDoc (save_doc c3Fresh) 0 (fun bb => { bb with data := Payload.genesis "evil" }))
    0

/-- The tampered genesis block as it sits in `c3Tampered`. -/
def c3Block : Block :=
  { index := 0, timestamp := 0, data := Payload.genesis "evil", previous_hash := "0",
    nonce := 0, hash := "0" }

/-- A difficulty-1 ledger over the constant-`"00"` digest function, after
one issuance. -/
def c5Base : GreenChain :=
  (issue_certificate cexHashZZ (freshChain cexHashZZ 1 0 "g") "c" emptyInput "t" 1 1).stateOr
    (freshChain cexHashZZ 1 0 "g")

/-- The mined certificate block of `c5Base`: its hash has two leading
zeros at difficulty 1. -/
def c5Block : Block :=
  { index := 1, timestamp := 1, data := certPayload "c" emptyInput "t", previous_hash := "00",
    nonce := 0, hash := "00" }

/-- A `cexHashC6` ledger after one issuance. -/
def c6Base : GreenChain :=
  (issue_certificate cexHashC6 (freshChain cexHashC6 0 0 "g") "c" emptyInput "t" 1 1).stateOr
    (freshChain cexHashC6 0 0 "g")

/-- `c6Base` with the recorded certificate block's payload overwritten in
memory while its stored hash field is kept. -/
def c6Tampered : GreenChain :=
  { c6Base with
      chain := updateAt c6Base.chain 1 (fun bb => { bb with data := Payload.genesis "evil" }) }

/-- The tampered certificate block as it sits in `c6Tampered`. -/
def c6Block : Block :=
  { index := 1, timestamp := 1, data := Payload.genesis "evil", previous_hash := "1",
    nonce := 0, hash := "0" }

/-- A demo real-time event. -/
def c10Event : RTEvent :=
  { etype := some "certificate_issued", room := "blockchain", payload := "p" }

/-- A rolling history holding exactly one dispatched event. -/
def c10Hist : List HistEntry := broadcast_event [] "t0" c10Event

/-! ### Mining lemmas -/

/-- Every block returned by the nonce-search loop carries the requested
fields, a hash that is its own recomputation, and a hash passing the
proof-of-work test. -/
theorem mineLoop_spec {H : HashFn} {d index ts : Nat} {data : Payload} {prev : String}
    {fuel n : Nat} {b : Block} (h : mineLoop H d index ts data prev fuel n = some b) :
    b.index = index ∧ b.timestamp = ts ∧ b.data = data ∧ b.previous_hash = prev ∧
      b.hash = calculate_hash H b ∧ powOk d b.hash = true := by
  induction fuel generalizing n with
  | zero => simp [mineLoop] at h
  | succ fuel ih =>
    rw [mineLoop] at h
    by_cases hp : powOk d (mkBlock H index ts data prev n).hash = true
    · simp only [hp, if_true] at h
      cases h
      exact ⟨rfl, rfl, rfl, rfl, rfl, hp⟩
    · simp only [hp, if_false, Bool.false_eq_true] at h
      exact ih h

/-- `mine_block` on a nonempty chain mines on top of the tip. -/
theorem mine_block_spec {H : HashFn} {st : GreenChain} {data : Payload} {ts fuel : Nat}
    {nb : Block} (hne : st.chain ≠ []) (hm : mine_block H st data ts fuel = some nb) :
    ∃ last, st.chain.get? (st.chain.length - 1) = some last ∧
      nb.index = last.index + 1 ∧ nb.previous_hash = last.hash ∧ nb.timestamp = ts ∧
      nb.data = data ∧ nb.hash = calculate_hash H nb ∧ powOk st.difficulty nb.hash = true := by
  have hlt : st.chain.length - 1 < st.chain.length := by
    have := List.length_pos.mpr hne
    omega
  have hlast : st.chain.get? (st.chain.length - 1) = some (st.chain.get ⟨st.chain.length - 1, hlt⟩) :=
    List.get?_eq_get hlt
  rw [mine_block, get_latest_block, hlast] at hm
  obtain ⟨h1, h2, h3, h4, h5, h6⟩ := mineLoop_spec hm
  exact ⟨_, hlast, h1, h4, h2, h3, h5, h6⟩

/-! ### Chain well-formedness -/

/-- The structural invariant of the in-memory block list: nonempty, indices
equal positions, every stored hash is its own recomputation, hash linkage
holds, and every non-genesis block passes the proof-of-work test. -/
structure ChainOK (H : HashFn) (d : Nat) (chain : List Block) : Prop where
  ne : chain ≠ []
  idx : ∀ i b, chain.get? i = some b → b.index = i
  hcalc : ∀ b, b ∈ chain → b.hash = calculate_hash H b
  link : ∀ i b pb, chain.get? i = some b → chain.get? (i - 1) = some pb → i ≠ 0 →
    b.previous_hash = pb.hash
  pw : ∀ b, b ∈ chain → b.index ≠ 0 → powOk d b.hash = true

/-- A freshly mined block is always accepted by `is_valid_block` when the
chain is well-formed: the defensive failure branch cannot fire. -/
theorem mined_valid_of_ok {H : HashFn} {st : GreenChain} {data : Payload} {ts fuel : Nat}
    {nb : Block} (hok : ChainOK H st.difficulty st.chain)
    (hm : mine_block H st data ts fuel = some nb) :
    is_valid_block H st nb = true := by
  obtain ⟨last, hlast, hidx, hprev, -, -, hhash, hpw⟩ := mine_block_spec hok.ne hm
  have hpos : 0 < st.chain.length := List.length_pos.mpr hok.ne
  have hlidx : last.index = st.chain.length - 1 := hok.idx _ _ hlast
  have hnb : nb.index = st.chain.length := by omega
  have hsub : nb.index - 1 = st.chain.length - 1 := by omega
  have h0 : ¬ (nb.index = 0) := by omega
  have h1 : ¬ (st.chain.length ≤ nb.index - 1) := by omega
  have h2 : ¬ (nb.previous_hash ≠ last.hash) := by simp [hprev]
  have h3 : ¬ (nb.hash ≠ calculate_hash H nb) := by simp [hhash]
  rw [is_valid_block, if_neg h0, if_neg h1, hsub, hlast]
  show (if nb.previous_hash ≠ last.hash then false
    else if nb.hash ≠ calculate_hash H nb then false
    else powOk st.difficulty nb.hash) = true
  rw [if_neg h2, if_neg h3]
  exact hpw

/-- Any positioned block of a well-formed chain passes `is_valid_block`. -/
theorem valid_block_of_ok {H : HashFn} {st : GreenChain}
    (hok : ChainOK H st.difficulty st.chain) {i : Nat} {b : Block}
    (hb : st.chain.get? i = some b) (hi : i ≠ 0) : is_valid_block H st b = true := by
  have hlt : i < st.chain.length := by
    by_contra hge
    rw [List.get?_eq_none.mpr (by omega)] at hb
    cases hb
  have hbidx : b.index = i := hok.idx _ _ hb
  have hplt : i - 1 < st.chain.length := by omega
  have hpb : st.chain.get? (i - 1) = some (st.chain.get ⟨i - 1, hplt⟩) := List.get?_eq_get hplt
  have h0 : ¬ (b.index = 0) := by omega
  have h1 : ¬ (st.chain.length ≤ b.index - 1) := by omega
  have h2 : ¬ (b.previous_hash ≠ (st.chain.get ⟨i - 1, hplt⟩).hash) := by
    simp [hok.link i b _ hb hpb hi]
  have h3 : ¬ (b.hash ≠ calculate_hash H b) := by
    simp [hok.hcalc b (List.get?_mem hb)]
  rw [is_valid_block, if_neg h0, if_neg h1, hbidx, hpb]
  show (if b.previous_hash ≠ (st.chain.get ⟨i - 1, hplt⟩).hash then false
    else if b.hash ≠ calculate_hash H b then false
    else powOk st.difficulty b.hash) = true
  rw [if_neg h2, if_neg h3]
  exact hok.pw b (List.get?_mem hb) (by omega)

/-- `is_chain_valid` holds on every well-formed chain. -/
theorem is_chain_valid_of_ok {H : HashFn} {st : GreenChain}
    (hok : ChainOK H st.difficulty st.chain) : is_chain_valid H st = true := by
  rw [is_chain_valid, List.all_eq_true]
  intro i hi
  by_cases h0 : i = 0
  · simp [h0]
  · rw [List.mem_range] at hi
    have hb : st.chain.get? i = some st.chain[i] := by
      rw [List.get?_eq_getElem?]
      exact List.getElem?_eq_getElem hi
    rw [hb]
    simp [valid_block_of_ok hok hb h0]

/-- If one positioned non-genesis block fails `is_valid_block`, the whole
chain audit fails. -/
theorem is_chain_valid_false_of {H : HashFn} {st : GreenChain} {i : Nat} {b : Block}
    (hb : st.chain.get? i = some b) (hi : i ≠ 0)
    (hbad : is_valid_block H st b = false) : is_chain_valid H st = false := by
  cases hcv : is_chain_valid H st with
  | false => rfl
  | true =>
    rw [is_chain_valid, List.all_eq_true] at hcv
    have hlt : i < st.chain.length := by
      by_contra hge
      rw [List.get?_eq_none.mpr (by omega)] at hb
      cases hb
    have := hcv i (List.mem_range.mpr hlt)
    rw [hb] at this
    simp [hi] at this
    rw [hbad] at this
    cases this

/-- Appending a block whose fields fit the tip preserves chain
well-formedness. -/
theorem chainOK_append {H : HashFn} {d : Nat} {chain : List Block} {nb : Block}
    (hok : ChainOK H d chain)
    (hidx : nb.index = chain.length)
    (hprev : ∀ last, chain.get? (chain.length - 1) = some last → nb.previous_hash = last.hash)
    (hhash : nb.hash = calculate_hash H nb)
    (hpw : powOk d nb.hash = true) :
    ChainOK H d (chain ++ [nb]) := by
  have hpos : 0 < chain.length := List.length_pos.mpr hok.ne
  refine ⟨by simp, ?_, ?_, ?_, ?_⟩
  · intro i b hb
    rcases Nat.lt_trichotomy i chain.length with hlt | heq | hgt
    · rw [List.get?_append hlt] at hb
      exact hok.idx i b hb
    · subst heq
      rw [List.get?_concat_length] at hb
      cases hb
      exact hidx
    · rw [List.get?_eq_none.mpr (by simp; omega)] at hb
      cases hb
  · intro b hb
    rcases List.mem_append.mp hb with h | h
    · exact hok.hcalc b h
    · rw [List.mem_singleton.mp h]
      exact hhash
  · intro i b pb hb hpb hne0
    rcases Nat.lt_trichotomy i chain.length with hlt | heq | hgt
    · rw [List.get?_append hlt] at hb
      rw [List.get?_append (by omega)] at hpb
      exact hok.link i b pb hb hpb hne0
    · subst heq
      rw [List.get?_concat_length] at hb
      cases hb
      rw [List.get?_append (by omega)] at hpb
      exact hprev pb hpb
    · rw [List.get?_eq_none.mpr (by simp; omega)] at hb
      cases hb
  · intro b hb hne0
    rcases List.mem_append.mp hb with h | h
    · exact hok.pw b h hne0
    · rw [List.mem_singleton.mp h]
      exact hpw

/-! ### Association-list lemmas -/

theorem lookupCert_insertCert (certs : List (String × CertInfo)) (cid cid' : String)
    (info : CertInfo) :
    lookupCert (insertCert certs cid info) cid' =
      if cid' = cid then some info else lookupCert certs cid' := by
  induction certs with
  | nil =>
    simp only [insertCert, lookupCert]
    split_ifs <;> simp_all
  | cons p rest ih =>
    obtain ⟨k, v⟩ := p
    by_cases hk : k = cid
    · subst hk
      simp only [insertCert, if_pos rfl, lookupCert]
      split_ifs <;>
        first
          | rfl
          | (rename_i hA hB
             first
               | exact absurd hA.symm hB
               | exact absurd hB.symm hA)
    · simp only [insertCert, if_neg hk, lookupCert, ih]
      split_ifs <;>
        first
          | rfl
          | (rename_i hA hB
             exact absurd (hA.trans hB) hk)

theorem insertCert_of_none (certs : List (String × CertInfo)) (cid : String)
    (info : CertInfo) (h : lookupCert certs cid = none) :
    insertCert certs cid info = certs ++ [(cid, info)] := by
  induction certs with
  | nil => rfl
  | cons p rest ih =>
    obtain ⟨k, v⟩ := p
    rw [lookupCert] at h
    by_cases hk : k = cid
    · rw [if_pos hk] at h
      cases h
    · rw [if_neg hk] at h
      simp [insertCert, hk, ih h]

theorem lookupCert_setStatus_isSome (certs : List (String × CertInfo)) (cid cid' s : String) :
    (lookupCert (setStatus certs cid s) cid').isSome = (lookupCert certs cid').isSome := by
  induction certs with
  | nil => rfl
  | cons p rest ih =>
    obtain ⟨k, v⟩ := p
    by_cases hk : k = cid
    · subst hk
      simp only [setStatus, if_pos rfl, lookupCert]
      split_ifs <;> rfl
    · simp only [setStatus, if_neg hk, lookupCert]
      split_ifs <;> first | rfl | exact ih

theorem lookupCert_isSome_of_mem {certs : List (String × CertInfo)} {cid : String}
    {info : CertInfo} (h : (cid, info) ∈ certs) : (lookupCert certs cid).isSome = true := by
  induction certs with
  | nil => cases h
  | cons p rest ih =>
    obtain ⟨k, v⟩ := p
    rcases List.mem_cons.mp h with heq | hmem
    · cases heq
      simp [lookupCert]
    · by_cases hk : k = cid <;> simp [lookupCert, hk, ih hmem]

theorem findByHash_mem {certs : List (String × CertInfo)} {h : String}
    {p : String × CertInfo} (he : findByHash certs h = some p) :
    p ∈ certs ∧ p.2.hash = h := by
  refine ⟨List.mem_of_find?_eq_some he, ?_⟩
  have := List.find?_some he
  simpa using this

/-- `setStatus` changes neither the keys nor the stored hashes, so the
first entry matching a hash keeps its key. -/
theorem findByHash_setStatus (certs : List (String × CertInfo)) (cid s h : String) :
    (findByHash (setStatus certs cid s) h).map Prod.fst = (findByHash certs h).map Prod.fst := by
  induction certs with
  | nil => rfl
  | cons p rest ih =>
    obtain ⟨k, v⟩ := p
    by_cases hk : k = cid
    · by_cases hh : v.hash == h <;>
        simp [setStatus, findByHash, List.find?, hk, hh]
    · by_cases hh : v.hash == h <;>
        simpa [setStatus, findByHash, List.find?, hk, hh] using ih

/-- Appending an entry whose hash no earlier entry carries: the scan finds
the appended entry. -/
theorem findByHash_append_of_fresh (certs : List (String × CertInfo))
    (p : String × CertInfo) (h : String)
    (hall : ∀ q ∈ certs, q.2.hash ≠ h) (hp : p.2.hash = h) :
    findByHash (certs ++ [p]) h = some p := by
  rw [findByHash, List.find?_append]
  have hnone : List.find? (fun q => q.2.hash == h) certs = none := by
    rw [List.find?_eq_none]
    intro q hq
    simp [hall q hq]
  rw [hnone, Option.none_or]
  simp [List.find?, hp]

theorem mem_addRetired {l : List String} {cid c : String} :
    c ∈ addRetired l cid ↔ c ∈ l ∨ c = cid := by
  rw [addRetired]
  by_cases h : cid ∈ l
  · rw [if_pos h]
    constructor
    · exact Or.inl
    · rintro (hc | rfl)
      · exact hc
      · exact h
  · rw [if_neg h]
    simp

/-! ### Operation inversion lemmas -/

theorem add_block_true_inv {H : HashFn} {st : GreenChain} {b : Block} {st1 : GreenChain}
    (h : add_block H st b = (true, st1)) :
    is_valid_block H st b = true ∧ st1 = { st with chain := st.chain ++ [b] } := by
  rw [add_block] at h
  by_cases hv : is_valid_block H st b = true
  · rw [if_pos hv] at h
    cases h
    exact ⟨hv, rfl⟩
  · rw [if_neg hv] at h
    cases h

/-- The state produced by a successful issuance on top of `st`. -/
def issuedState (st : GreenChain) (certId : String) (input : CertInput) (issuedAt : String)
    (nb : Block) : GreenChain :=
  { chain := st.chain ++ [nb], difficulty := st.difficulty,
    certificates := insertCert st.certificates certId
      { hash := nb.hash, block_index := nb.index,
        data := certPayload certId input issuedAt, status := "active" },
    retired_certificates := st.retired_certificates }

theorem issue_ok_inv {H : HashFn} {st : GreenChain} {certId : String} {input : CertInput}
    {issuedAt : String} {ts fuel : Nat} {h : String} {st' : GreenChain}
    (he : issue_certificate H st certId input issuedAt ts fuel = IssueResult.ok h st') :
    lookupCert st.certificates certId = none ∧
    ∃ nb, mine_block H st (certPayload certId input issuedAt) ts fuel = some nb ∧
      is_valid_block H st nb = true ∧ h = nb.hash ∧
      st' = issuedState st certId input issuedAt nb := by
  simp only [issue_certificate] at he
  split at he
  · cases he
  next hl =>
    split at he
    · cases he
    next nb hm =>
      split at he
      next st1 hab =>
        obtain ⟨hv, hst⟩ := add_block_true_inv hab
        cases he
        subst hst
        exact ⟨Option.not_isSome_iff_eq_none.mp hl, nb, hm, hv, rfl, rfl⟩
      next st1 hab => cases he

theorem issue_ok_of {H : HashFn} {st : GreenChain} {certId : String} {input : CertInput}
    {issuedAt : String} {ts fuel : Nat} {nb : Block}
    (hl : lookupCert st.certificates certId = none)
    (hm : mine_block H st (certPayload certId input issuedAt) ts fuel = some nb)
    (hv : is_valid_block H st nb = true) :
    issue_certificate H st certId input issuedAt ts fuel =
      IssueResult.ok nb.hash (issuedState st certId input issuedAt nb) := by
  simp only [issue_certificate, hl, Option.isSome_none, Bool.false_eq_true, if_false, hm,
    add_block, if_pos hv]
  rfl

/-- The state produced by a successful retirement on top of `st`. -/
def retiredState (st : GreenChain) (cid : String) (rb : Block) : GreenChain :=
  { retireMark st cid with chain := st.chain ++ [rb] }

theorem retire_true_inv {H : HashFn} {st : GreenChain} {ch retiredAt : String}
    {ts fuel : Nat} {st' : GreenChain}
    (he : retire_certificate H st ch retiredAt ts fuel = RetireResult.ret true st') :
    ∃ cid info rb,
      findByHash st.certificates ch = some (cid, info) ∧
      cid ∉ st.retired_certificates ∧
      mine_block H (retireMark st cid) (Payload.retirement cid ch retiredAt) ts fuel = some rb ∧
      is_valid_block H (retireMark st cid) rb = true ∧
      st' = retiredState st cid rb := by
  simp only [retire_certificate] at he
  split at he
  next cid info hf =>
    split at he
    · cases he
    next hnr =>
      split at he
      · cases he
      next rb hm =>
        split at he
        next st2 hab =>
          obtain ⟨hv, hst⟩ := add_block_true_inv hab
          cases he
          subst hst
          exact ⟨cid, info, rb, hf, hnr, hm, hv, rfl⟩
        next st2 hab => cases he
  next hf => cases he

theorem retire_true_of {H : HashFn} {st : GreenChain} {ch retiredAt : String}
    {ts fuel : Nat} {cid : String} {info : CertInfo} {rb : Block}
    (hf : findByHash st.certificates ch = some (cid, info))
    (hnr : cid ∉ st.retired_certificates)
    (hm : mine_block H (retireMark st cid) (Payload.retirement cid ch retiredAt) ts fuel = some rb)
    (hv : is_valid_block H (retireMark st cid) rb = true) :
    retire_certificate H st ch retiredAt ts fuel =
      RetireResult.ret true (retiredState st cid rb) := by
  simp only [retire_certificate, hf, if_neg hnr, hm, add_block, if_pos hv]
  rfl

theorem retire_false_of_retired {H : HashFn} {st : GreenChain} {ch retiredAt : String}
    {ts fuel : Nat} {cid : String} {info : CertInfo}
    (hf : findByHash st.certificates ch = some (cid, info))
    (hr : cid ∈ st.retired_certificates) :
    retire_certificate H st ch retiredAt ts fuel = RetireResult.ret false st := by
  simp only [retire_certificate, hf, if_pos hr]

theorem retire_false_of_notfound {H : HashFn} {st : GreenChain} {ch retiredAt : String}
    {ts fuel : Nat} (hf : findByHash st.certificates ch = none) :
    retire_certificate H st ch retiredAt ts fuel = RetireResult.ret false st := by
  simp only [retire_certificate, hf]

/-! ### The reachable-state invariant -/

theorem rebuild_append (chain : List Block) (b : Block) :
    rebuildIndices (chain ++ [b]) = importStep (rebuildIndices chain) b := by
  rw [rebuildIndices, rebuildIndices, List.foldl_append]
  rfl

/-- Invariant of every reachable ledger state: the chain is well-formed,
and both accelerator indices are exactly what replaying the block log
rebuilds, with every retired id present in the certificate index. -/
structure WFState (H : HashFn) (st : GreenChain) : Prop where
  ok : ChainOK H st.difficulty st.chain
  idxeq : rebuildIndices st.chain = (st.certificates, st.retired_certificates)
  retsub : ∀ cid, cid ∈ st.retired_certificates → (lookupCert st.certificates cid).isSome = true

theorem wfState_fresh (H : HashFn) (d gts : Nat) (iso : String) :
    WFState H (freshChain H d gts iso) := by
  refine ⟨⟨?_, ?_, ?_, ?_, ?_⟩, rfl, ?_⟩
  · simp [freshChain]
  · intro i b hb
    cases i with
    | zero =>
      cases hb
      rfl
    | succ n =>
      cases hb
  · intro b hb
    rcases List.mem_singleton.mp hb with rfl
    rfl
  · intro i b pb hb hpb hi
    cases i with
    | zero => exact absurd rfl hi
    | succ n =>
      cases hb
  · intro b hb hi
    rcases List.mem_singleton.mp hb with rfl
    exact absurd rfl hi
  · intro cid hc
    cases hc

theorem wf_issue {H : HashFn} {st st' : GreenChain} {certId : String} {input : CertInput}
    {issuedAt : String} {ts fuel : Nat} {h : String}
    (hw : WFState H st)
    (he : issue_certificate H st certId input issuedAt ts fuel = IssueResult.ok h st') :
    WFState H st' := by
  obtain ⟨hl, nb, hm, hv, hh, hst⟩ := issue_ok_inv he
  obtain ⟨last, hlast, hids, hprev, hts, hdata, hhash, hpw⟩ := mine_block_spec hw.ok.ne hm
  have hpos : 0 < st.chain.length := List.length_pos.mpr hw.ok.ne
  have hlidx : last.index = st.chain.length - 1 := hw.ok.idx _ _ hlast
  have hnbidx : nb.index = st.chain.length := by omega
  subst hst
  refine ⟨?_, ?_, ?_⟩
  · exact chainOK_append hw.ok hnbidx
      (fun l hl2 => by rw [hlast] at hl2; cases hl2; exact hprev) hhash hpw
  · show rebuildIndices (st.chain ++ [nb]) = _
    rw [rebuild_append, hw.idxeq]
    simp only [importStep, hdata, certPayload]
    rfl
  · intro cid hc
    show (lookupCert (insertCert st.certificates certId _) cid).isSome = true
    rw [lookupCert_insertCert]
    by_cases hcc : cid = certId
    · rw [if_pos hcc]
      rfl
    · rw [if_neg hcc]
      exact hw.retsub cid hc

theorem wf_retire {H : HashFn} {st st' : GreenChain} {ch retiredAt : String} {ts fuel : Nat}
    (hw : WFState H st)
    (he : retire_certificate H st ch retiredAt ts fuel = RetireResult.ret true st') :
    WFState H st' := by
  obtain ⟨cid, info, rb, hf, hnr, hm, hv, hst⟩ := retire_true_inv he
  have hok1 : ChainOK H (retireMark st cid).difficulty (retireMark st cid).chain := hw.ok
  obtain ⟨last, hlast, hids, hprev, hts, hdata, hhash, hpw⟩ := mine_block_spec hok1.ne hm
  have hpos : 0 < st.chain.length := List.length_pos.mpr hw.ok.ne
  have hlidx : last.index = st.chain.length - 1 := hw.ok.idx _ _ hlast
  have hrbidx : rb.index = st.chain.length := by omega
  have hmem : (cid, info) ∈ st.certificates := (findByHash_mem hf).1
  have hsome : (lookupCert st.certificates cid).isSome = true := lookupCert_isSome_of_mem hmem
  have hlast2 : st.chain.get? (st.chain.length - 1) = some last := hlast
  subst hst
  refine ⟨?_, ?_, ?_⟩
  · exact chainOK_append hw.ok hrbidx
      (fun l hl2 => by rw [hlast2] at hl2; cases hl2; exact hprev) hhash hpw
  · show rebuildIndices (st.chain ++ [rb]) = _
    rw [rebuild_append, hw.idxeq]
    simp only [importStep, hdata, hsome, if_true]
    rfl
  · intro c hc
    show (lookupCert (setStatus st.certificates cid "retired") c).isSome = true
    rw [lookupCert_setStatus_isSome]
    rcases mem_addRetired.mp hc with hcr | rfl
    · exact hw.retsub c hcr
    · exact hsome

/-- Every reachable state satisfies the invariant. -/
theorem reachable_wf {H : HashFn} {st : GreenChain} (hr : Reachable H st) : WFState H st := by
  obtain ⟨d, gts, iso, htr⟩ := hr
  induction htr with
  | refl => exact wfState_fresh H d gts iso
  | tail hab hbc ih =>
    cases hbc with
    | issue heq => exact wf_issue ih heq
    | retire heq => exact wf_retire ih heq

/-! ### Persistence and tampering lemmas -/

theorem reconstructBlock_id (H : HashFn) (bd : Block) : reconstructBlock H bd = bd := rfl

theorem map_reconstructBlock (H : HashFn) (l : List Block) :
    l.map (reconstructBlock H) = l := by
  induction l with
  | nil => rfl
  | cons b bs ih => simp [ih, reconstructBlock_id]

/-- Reloading an untampered document restores the saved state (up to the
freshly supplied difficulty argument). -/
theorem load_save (H : HashFn) (st : GreenChain) (d : Nat) :
    load_blockchain H (save_doc st) d = { st with difficulty := d } := by
  rw [load_blockchain, save_doc]
  simp [map_reconstructBlock]

theorem updateAt_length (l : List Block) (i : Nat) (f : Block → Block) :
    (updateAt l i f).length = l.length := by
  induction l generalizing i with
  | nil => rfl
  | cons b bs ih =>
    cases i with
    | zero => rfl
    | succ n => simp [updateAt, ih]

theorem updateAt_get?_self (l : List Block) (i : Nat) (f : Block → Block) :
    (updateAt l i f).get? i = (l.get? i).map f := by
  induction l generalizing i with
  | nil => rfl
  | cons b bs ih =>
    cases i with
    | zero => rfl
    | succ n => simpa [updateAt] using ih n

theorem updateAt_get?_other (l : List Block) (i j : Nat) (f : Block → Block) (h : j ≠ i) :
    (updateAt l i f).get? j = l.get? j := by
  induction l generalizing i j with
  | nil => rfl
  | cons b bs ih =>
    cases i with
    | zero =>
      cases j with
      | zero => exact absurd rfl h
      | succ m => rfl
    | succ n =>
      cases j with
      | zero => rfl
      | succ m => simpa [updateAt] using ih n m (fun hc => h (by rw [hc]))

/-! ### Demo reachability facts -/

theorem demoFresh_reach : Reachable demoHash demoFresh :=
  ⟨0, 0, "g", Relation.ReflTransGen.refl⟩

theorem demoSt1_reach : Reachable demoHash demoSt1 :=
  ⟨0, 0, "g", Relation.ReflTransGen.single
    (Step.issue (show issue_certificate demoHash demoFresh "c" emptyInput "t" 1 1 =
      IssueResult.ok "0" demoSt1 by decide))⟩

/-- Proof-of-work success carries over to the leading-zero count. -/
theorem countZeros_of_startsWithZeros {d : Nat} {cs : List Char}
    (h : startsWithZeros d cs = true) : d ≤ countZeros cs := by
  induction d generalizing cs with
  | zero => omega
  | succ n ih =>
    cases cs with
    | nil => cases h
    | cons c cs2 =>
      rw [startsWithZeros, Bool.and_eq_true, beq_iff_eq] at h
      rw [countZeros, if_pos h.1]
      have := ih h.2
      omega

/-! ### Claim theorems -/

/-- C4 counterexample: on a freshly initialized ledger the genesis block is
built by a plain `Block(0, ..., "0")` constructor call with nonce 0 and no
nonce search, so its hash need not satisfy the proof-of-work constraint:
with the digest function `cexHashF` and difficulty 1 the single genesis
block's hash has no leading zero, contradicting the claim that the fresh
ledger's block satisfies the configured proof-of-work. -/
theorem c4_counterexample_genesis_pow_fails :
    (freshChain cexHashF 1 0 "g").chain.length = 1 ∧
    powOk (freshChain cexHashF 1 0 "g").difficulty
      (create_genesis_block cexHashF 0 "g").hash = false := by
  exact ⟨rfl, rfl⟩

/-- C4 (amended): a freshly initialized ledger (no persisted document)
contains exactly one block, the genesis block, with index 0 and
previous hash `"0"`, whose stored hash is its own recomputation — but it
carries no proof-of-work guarantee, since `create_genesis_block` performs
no nonce search. -/
theorem c4_fresh_ledger_genesis_shape (H : HashFn) (d gts : Nat) (iso : String) :
    (freshChain H d gts iso).chain = [create_genesis_block H gts iso] ∧
    (freshChain H d gts iso).chain.length = 1 ∧
    (create_genesis_block H gts iso).index = 0 ∧
    (create_genesis_block H gts iso).previous_hash = "0" ∧
    (create_genesis_block H gts iso).hash =
      calculate_hash H (create_genesis_block H gts iso) :=
  ⟨rfl, rfl, rfl, rfl, rfl⟩

/-- C9: on any reachable ledger state, a block produced by `mine_block`
against the current tip always passes `is_valid_block`, so `add_block`
appends it and returns `True` — the defensive self-validation failure
branches of `issue_certificate` and `retire_certificate` are
unreachable. -/
theorem c9_mined_block_always_valid {H : HashFn} {st : GreenChain} (hr : Reachable H st)
    (data : Payload) (ts fuel : Nat) {nb : Block}
    (hm : mine_block H st data ts fuel = some nb) :
    is_valid_block H st nb = true ∧
    add_block H st nb = (true, { st with chain := st.chain ++ [nb] }) := by
  have hv := mined_valid_of_ok (reachable_wf hr).ok hm
  exact ⟨hv, by rw [add_block, if_pos hv]⟩

/-- C9 witness: the theorem applied to the fresh demo ledger and a
concretely mined block. -/
theorem c9_witness :
    is_valid_block demoHash demoFresh (mkBlock demoHash 1 5 (Payload.genesis "x") "0" 0)
      = true :=
  (c9_mined_block_always_valid demoFresh_reach (Payload.genesis "x") 5 1
    (show mine_block demoHash demoFresh (Payload.genesis "x") 5 1 =
      some (mkBlock demoHash 1 5 (Payload.genesis "x") "0" 0) by decide)).1

/-- C5 counterexample: the nonce search only tests
`startswith('0' * difficulty)`, and the genesis block is not mined at all,
so "exactly `difficulty` leading zeros" fails: over the constant-`"00"`
digest function at difficulty 1, the ledger obtained from one successful
issuance holds a mined certificate block whose hash has two leading zeros,
not exactly one. -/
theorem c5_counterexample_not_exact :
    issue_certificate cexHashZZ (freshChain cexHashZZ 1 0 "g") "c" emptyInput "t" 1 1 =
      IssueResult.ok "00" c5Base ∧
    c5Base.difficulty = 1 ∧
    c5Base.chain.get? 1 = some c5Block ∧
    countZeros c5Block.hash.data ≠ c5Base.difficulty := by
  exact ⟨by decide, rfl, by decide, by decide⟩

/-- C5 (amended): in every ledger state reachable by issue/retire
operations, every block's stored hash equals its recomputation from the
block's five content fields (independently of the nonce search), and every
non-genesis block's hash has at least `difficulty` leading zero hex
characters. -/
theorem c5_pow_recompute {H : HashFn} {st : GreenChain} (hr : Reachable H st) :
    ∀ b ∈ st.chain, b.hash = calculate_hash H b ∧
      (b.index ≠ 0 → st.difficulty ≤ countZeros b.hash.data) := by
  have hw := reachable_wf hr
  intro b hb
  exact ⟨hw.ok.hcalc b hb,
    fun hi => countZeros_of_startsWithZeros (hw.ok.pw b hb hi)⟩

/-- C5 witness: the theorem applied to the demo ledger and its genesis
block. -/
theorem c5_witness :
    (create_genesis_block demoHash 0 "g").hash =
      calculate_hash demoHash (create_genesis_block demoHash 0 "g") :=
  (c5_pow_recompute demoSt1_reach (create_genesis_block demoHash 0 "g") (by decide)).1

/-- C7 counterexample: `issue_certificate` performs no field validation at
all: the all-fields-missing input is accepted, no exception is raised, and
a block is appended, contradicting the claim that it fails with a
`ValidationError` before any mutation. -/
theorem c7_counterexample_no_validation :
    issue_certificate demoHash demoFresh "c" emptyInput "t" 1 1 =
      IssueResult.ok "0" demoSt1 ∧
    demoSt1.chain.length = demoFresh.chain.length + 1 ∧
    lookupCert demoSt1.certificates "c" = some demoInfo1 := by
  exact ⟨by decide, by decide, by decide⟩

/-- C7 (amended): `issue_certificate` validates nothing: for every input
record — fields present or absent — given a fresh certificate id and a
terminating nonce search, it returns the mined block's hash, appends
exactly one block, and records the certificate; missing fields are simply
recorded as nulls. -/
theorem c7_issue_no_validation {H : HashFn} {st : GreenChain} (hr : Reachable H st)
    (certId : String) (input : CertInput) (issuedAt : String) (ts fuel : Nat) {nb : Block}
    (hl : lookupCert st.certificates certId = none)
    (hm : mine_block H st (certPayload certId input issuedAt) ts fuel = some nb) :
    issue_certificate H st certId input issuedAt ts fuel =
      IssueResult.ok nb.hash (issuedState st certId input issuedAt nb) ∧
    (issuedState st certId input issuedAt nb).chain.length = st.chain.length + 1 := by
  have hv := mined_valid_of_ok (reachable_wf hr).ok hm
  refine ⟨issue_ok_of hl hm hv, ?_⟩
  show (st.chain ++ [nb]).length = st.chain.length + 1
  simp

/-- C7 witness: the amended theorem applied to the fresh demo ledger with
the all-fields-missing input. -/
theorem c7_witness :
    issue_certificate demoHash demoFresh "c" emptyInput "t" 1 1 =
      IssueResult.ok (mkBlock demoHash 1 1 (certPayload "c" emptyInput "t") "0" 0).hash
        (issuedState demoFresh "c" emptyInput "t"
          (mkBlock demoHash 1 1 (certPayload "c" emptyInput "t") "0" 0)) :=
  (c7_issue_no_validation demoFresh_reach "c" emptyInput "t" 1 1
    (show lookupCert demoFresh.certificates "c" = none by decide)
    (show mine_block demoHash demoFresh (certPayload "c" emptyInput "t") 1 1 =
      some (mkBlock demoHash 1 1 (certPayload "c" emptyInput "t") "0" 0) by decide)).1

/-- C8: exporting a reachable ledger's chain and importing it into any
other ledger succeeds and reproduces the original chain together with
certificate and retired-set indices identical to the original's, and those
indices are exactly what replaying the block sequence rebuilds. -/
theorem c8_export_import_rebuild {H : HashFn} {st : GreenChain} (hr : Reachable H st)
    (stF : GreenChain) :
    import_chain H stF (export_chain st) =
      (true,
        { stF with
            chain := st.chain
            certificates := st.certificates
            retired_certificates := st.retired_certificates }) ∧
    rebuildIndices st.chain = (st.certificates, st.retired_certificates) := by
  have hw := reachable_wf hr
  refine ⟨?_, hw.idxeq⟩
  simp only [import_chain, export_chain, map_reconstructBlock, hw.idxeq]

/-- C8 witness: exporting the demo ledger and importing it into another
fresh ledger reproduces the demo ledger's indices. -/
theorem c8_witness :
    import_chain demoHash (freshChain demoHash 0 7 "h") (export_chain demoSt1) =
      (true,
        { freshChain demoHash 0 7 "h" with
            chain := demoSt1.chain
            certificates := demoSt1.certificates
            retired_certificates := demoSt1.retired_certificates }) :=
  (c8_export_import_rebuild demoSt1_reach (freshChain demoHash 0 7 "h")).1

/-- C10 (code bug): `get_event_history` computes `events[-limit:]`, and for
`limit = 0` the Python slice `events[-0:]` is `events[0:]`, i.e. the whole
filtered history — not the claimed "no events". With a one-event history
the call with limit 0 returns that event. (For `limit ≥ 1` the slice does
return the at-most-`limit` most recent matching events in dispatch
order.) -/
theorem c10_zero_limit_returns_all :
    c10Hist.length = 1 ∧
    get_event_history c10Hist none 0 = c10Hist ∧
    get_event_history c10Hist none 0 ≠ [] := by
  exact ⟨by decide, by decide, by decide⟩

/-- C1: on any reachable ledger, a successful `issue_certificate` call
returns a hash `h` such that `verify_certificate h` on the resulting state
immediately returns `(True, payload)` where the payload is exactly the
certificate record built for the issuance — under the collision-resistance
side condition that no previously recorded certificate carries the same
digest. -/
theorem c1_issue_then_verify {H : HashFn} {st : GreenChain} (hr : Reachable H st)
    {certId : String} {input : CertInput} {issuedAt : String} {ts fuel : Nat}
    {h : String} {st' : GreenChain}
    (he : issue_certificate H st certId input issuedAt ts fuel = IssueResult.ok h st')
    (hfresh : ∀ p ∈ st.certificates, p.2.hash ≠ h) :
    verify_certificate st' h = (true, Sum.inl (certPayload certId input issuedAt)) := by
  have hw := reachable_wf hr
  obtain ⟨hl, nb, hm, hv, hh, hst⟩ := issue_ok_inv he
  subst hh
  subst hst
  obtain ⟨last, hlast, hids, hprev, hts, hdata, hhash, hpw⟩ := mine_block_spec hw.ok.ne hm
  have hpos : 0 < st.chain.length := List.length_pos.mpr hw.ok.ne
  have hlidx : last.index = st.chain.length - 1 := hw.ok.idx _ _ hlast
  have hnbidx : nb.index = st.chain.length := by omega
  have hins : insertCert st.certificates certId
      { hash := nb.hash, block_index := nb.index,
        data := certPayload certId input issuedAt, status := "active" } =
      st.certificates ++ [(certId,
        { hash := nb.hash, block_index := nb.index,
          data := certPayload certId input issuedAt, status := "active" })] :=
    insertCert_of_none _ _ _ hl
  have hfind : findByHash (insertCert st.certificates certId
      { hash := nb.hash, block_index := nb.index,
        data := certPayload certId input issuedAt, status := "active" }) nb.hash =
      some (certId,
        { hash := nb.hash, block_index := nb.index,
          data := certPayload certId input issuedAt, status := "active" }) := by
    rw [hins]
    exact findByHash_append_of_fresh _ _ _ hfresh rfl
  have hnr : certId ∉ st.retired_certificates := by
    intro hc
    have hs := hw.retsub certId hc
    rw [hl] at hs
    cases hs
  have hget : (st.chain ++ [nb]).get? nb.index = some nb := by
    rw [hnbidx]
    exact List.get?_concat_length _ _
  simp only [verify_certificate, issuedState, hfind]
  rw [if_neg hnr]
  simp only [hget]
  simp

/-- C1 witness: issuing on the fresh demo ledger and verifying the
returned hash. -/
theorem c1_witness :
    verify_certificate demoSt1 "0" = (true, Sum.inl (certPayload "c" emptyInput "t")) :=
  c1_issue_then_verify demoFresh_reach
    (show issue_certificate demoHash demoFresh "c" emptyInput "t" 1 1 =
      IssueResult.ok "0" demoSt1 by decide)
    (by simp [demoFresh, freshChain])

/-- C2: on a reachable ledger, retiring the hash of an issued, not yet
retired certificate succeeds (provided the nonce search terminates),
appending exactly one retirement block; every subsequent retirement of the
same hash returns `False` and leaves the state — in particular the chain
length — unchanged; and retiring a hash that belongs to no recorded
certificate returns `False` with the state unchanged instead of raising. -/
theorem c2_retire_lifecycle {H : HashFn} {st : GreenChain} (hr : Reachable H st)
    {ch : String} {cid : String} {info : CertInfo}
    (hf : findByHash st.certificates ch = some (cid, info))
    (hnr : cid ∉ st.retired_certificates)
    {retiredAt : String} {ts fuel : Nat} {b : Bool} {st' : GreenChain}
    (he : retire_certificate H st ch retiredAt ts fuel = RetireResult.ret b st') :
    (b = true ∧ st'.chain.length = st.chain.length + 1 ∧
      ∀ retiredAt2 ts2 fuel2,
        retire_certificate H st' ch retiredAt2 ts2 fuel2 = RetireResult.ret false st') ∧
    (∀ h2, findByHash st.certificates h2 = none →
      ∀ retiredAt2 ts2 fuel2,
        retire_certificate H st h2 retiredAt2 ts2 fuel2 = RetireResult.ret false st) := by
  have hw := reachable_wf hr
  refine ?_
  have hmain : b = true ∧ st'.chain.length = st.chain.length + 1 ∧
      ∀ retiredAt2 ts2 fuel2,
        retire_certificate H st' ch retiredAt2 ts2 fuel2 = RetireResult.ret false st' := by
    simp only [retire_certificate, hf, if_neg hnr] at he
    split at he
    · cases he
    next rb hm =>
      have hok1 : ChainOK H (retireMark st cid).difficulty (retireMark st cid).chain := hw.ok
      have hv := mined_valid_of_ok hok1 hm
      split at he
      next st2 hab =>
        obtain ⟨-, hst2⟩ := add_block_true_inv hab
        cases he
        subst hst2
        refine ⟨rfl, by simp [retireMark], ?_⟩
        intro retiredAt2 ts2 fuel2
        have hkey := findByHash_setStatus st.certificates cid "retired" ch
        rw [hf] at hkey
        cases hfind2 : findByHash (setStatus st.certificates cid "retired") ch with
        | none =>
          rw [hfind2] at hkey
          cases hkey
        | some p =>
          obtain ⟨k2, i2⟩ := p
          rw [hfind2] at hkey
          rw [Option.map_some'] at hkey
          cases hkey
          exact retire_false_of_retired hfind2 (mem_addRetired.mpr (Or.inr rfl))
      next st2 hab =>
        rw [add_block, if_pos hv] at hab
        cases hab
  exact ⟨hmain, fun h2 hn retiredAt2 ts2 fuel2 => retire_false_of_notfound hn⟩

/-- C2 witness: retiring the demo certificate once succeeds; a second
retirement of the same hash returns `False` on the unchanged state. -/
theorem c2_witness :
    retire_certificate demoHash demoSt2 "0" "q" 3 1 = RetireResult.ret false demoSt2 :=
  (c2_retire_lifecycle demoSt1_reach
    (show findByHash demoSt1.certificates "0" = some ("c", demoInfo1) by decide)
    (show "c" ∉ demoSt1.retired_certificates by decide)
    (show retire_certificate demoHash demoSt1 "0" "r" 2 1 =
      RetireResult.ret true demoSt2 by decide)).1.2.2 "q" 3 1

/-- Reloading a document tampered at one position yields the in-memory
state with that one block updated. -/
theorem load_mutate (H : HashFn) (st : GreenChain) (i : Nat) (f : Block → Block) :
    load_blockchain H (mutateDoc (save_doc st) i f) st.difficulty =
      { st with chain := updateAt st.chain i f } := by
  rw [load_blockchain, mutateDoc, save_doc]
  simp [map_reconstructBlock]

/-- A non-genesis block with broken linkage or a stored hash that does not
match its recomputation fails `is_valid_block`. -/
theorem is_valid_block_false_at {H : HashFn} {st2 : GreenChain} {b2 pb : Block}
    (hb2i : ¬ (b2.index = 0))
    (hlen : ¬ (st2.chain.length ≤ b2.index - 1))
    (hpb : st2.chain.get? (b2.index - 1) = some pb)
    (hbad : b2.previous_hash ≠ pb.hash ∨ b2.hash ≠ calculate_hash H b2) :
    is_valid_block H st2 b2 = false := by
  rw [is_valid_block, if_neg hb2i, if_neg hlen, hpb]
  show (if b2.previous_hash ≠ pb.hash then false
    else if b2.hash ≠ calculate_hash H b2 then false
    else powOk st2.difficulty b2.hash) = false
  rcases hbad with hc | hc
  · rw [if_pos hc]
  · by_cases hp : b2.previous_hash ≠ pb.hash
    · rw [if_pos hp]
    · rw [if_neg hp, if_pos hc]

/-- C3 (amended): `is_chain_valid` returns `True` on every ledger state
reachable by successful issue/retire calls; and for every non-genesis
block of the persisted document, overwriting that block's `previous_hash`
with any different value, or overwriting its payload with one whose
recomputed digest differs from the stored hash, and reloading the
document, makes `is_chain_valid` return `False`.  (The genesis block is
exempt: the audit loop starts at index 1 and `is_valid_block` accepts any
index-0 block, see the counterexample.) -/
theorem c3_chain_valid_tamper_evident {H : HashFn} {st : GreenChain} (hr : Reachable H st) :
    is_chain_valid H st = true ∧
    (∀ i b, st.chain.get? i = some b → i ≠ 0 →
      (∀ ph, ph ≠ b.previous_hash →
        is_chain_valid H (load_blockchain H
          (mutateDoc (save_doc st) i (fun bb => { bb with previous_hash := ph }))
          st.difficulty) = false) ∧
      (∀ pd, H b.index b.timestamp pd b.previous_hash b.nonce ≠ b.hash →
        is_chain_valid H (load_blockchain H
          (mutateDoc (save_doc st) i (fun bb => { bb with data := pd }))
          st.difficulty) = false)) := by
  have hw := reachable_wf hr
  refine ⟨is_chain_valid_of_ok hw.ok, ?_⟩
  intro i b hb hi
  have hlt : i < st.chain.length := by
    by_contra hge
    rw [List.get?_eq_none.mpr (by omega)] at hb
    cases hb
  have hbidx : b.index = i := hw.ok.idx _ _ hb
  have hplt : i - 1 < st.chain.length := by omega
  have hpb : st.chain.get? (i - 1) = some (st.chain.get ⟨i - 1, hplt⟩) := List.get?_eq_get hplt
  have hlink : b.previous_hash = (st.chain.get ⟨i - 1, hplt⟩).hash :=
    hw.ok.link i b _ hb hpb hi
  constructor
  · intro ph hph
    rw [load_mutate]
    have hb2 : (updateAt st.chain i (fun bb => { bb with previous_hash := ph })).get? i =
        some { b with previous_hash := ph } := by
      rw [updateAt_get?_self, hb]
      rfl
    have h0 : ¬ (({ b with previous_hash := ph } : Block).index = 0) := by
      show ¬ (b.index = 0)
      omega
    have hlen : ¬ ((updateAt st.chain i (fun bb => { bb with previous_hash := ph })).length ≤
        ({ b with previous_hash := ph } : Block).index - 1) := by
      show ¬ ((updateAt st.chain i (fun bb => { bb with previous_hash := ph })).length ≤ b.index - 1)
      rw [updateAt_length]
      omega
    have hpb2 : (updateAt st.chain i (fun bb => { bb with previous_hash := ph })).get?
        (({ b with previous_hash := ph } : Block).index - 1) =
        some (st.chain.get ⟨i - 1, hplt⟩) := by
      show (updateAt st.chain i (fun bb => { bb with previous_hash := ph })).get? (b.index - 1) =
        some (st.chain.get ⟨i - 1, hplt⟩)
      rw [hbidx, updateAt_get?_other _ _ _ _ (by omega)]
      exact hpb
    have hbad : ({ b with previous_hash := ph } : Block).previous_hash ≠
        (st.chain.get ⟨i - 1, hplt⟩).hash := by
      show ph ≠ (st.chain.get ⟨i - 1, hplt⟩).hash
      rw [← hlink]
      exact hph
    exact is_chain_valid_false_of hb2 hi
      (is_valid_block_false_at h0 hlen hpb2 (Or.inl hbad))
  · intro pd hpd
    rw [load_mutate]
    have hb2 : (updateAt st.chain i (fun bb => { bb with data := pd })).get? i =
        some { b with data := pd } := by
      rw [updateAt_get?_self, hb]
      rfl
    have h0 : ¬ (({ b with data := pd } : Block).index = 0) := by
      show ¬ (b.index = 0)
      omega
    have hlen : ¬ ((updateAt st.chain i (fun bb => { bb with data := pd })).length ≤
        ({ b with data := pd } : Block).index - 1) := by
      show ¬ ((updateAt st.chain i (fun bb => { bb with data := pd })).length ≤ b.index - 1)
      rw [updateAt_length]
      omega
    have hpb2 : (updateAt st.chain i (fun bb => { bb with data := pd })).get?
        (({ b with data := pd } : Block).index - 1) =
        some (st.chain.get ⟨i - 1, hplt⟩) := by
      show (updateAt st.chain i (fun bb => { bb with data := pd })).get? (b.index - 1) =
        some (st.chain.get ⟨i - 1, hplt⟩)
      rw [hbidx, updateAt_get?_other _ _ _ _ (by omega)]
      exact hpb
    have hbad : ({ b with data := pd } : Block).hash ≠
        calculate_hash H { b with data := pd } := by
      show b.hash ≠ H b.index b.timestamp pd b.previous_hash b.nonce
      exact fun hc => hpd hc.symm
    exact is_chain_valid_false_of hb2 hi
      (is_valid_block_false_at h0 hlen hpb2 (Or.inr hbad))

/-- C3 witness: the validity half applied to the demo ledger after one
issuance. -/
theorem c3_witness : is_chain_valid demoHash demoSt1 = true :=
  (c3_chain_valid_tamper_evident demoSt1_reach).1

/-- C3 counterexample: tampering with the persisted genesis block's
payload is NOT detected — after overwriting block 0's payload (stored
hash kept, recomputed digest now different) and reloading, the chain
audit still returns `True`, contradicting the claim that mutating any
persisted block's payload makes `is_chain_valid` false. -/
theorem c3_counterexample_genesis_tamper :
    c3Tampered.chain.get? 0 = some c3Block ∧
    c3Block.data ≠ (create_genesis_block cexHashC3 0 "g").data ∧
    calculate_hash cexHashC3 c3Block ≠ c3Block.hash ∧
    is_chain_valid cexHashC3 c3Tampered = true := by
  exact ⟨by decide, by decide, by decide, by decide⟩

/-- C6 (amended): `verify_certificate h` returns valid only when the first
certificate entry recorded under `h` exists, is not retired, and the block
at its recorded index carries `h` in its STORED hash field — the block's
content is never re-hashed, so the result of `verify_certificate` is
completely insensitive to the payload stored in any chain block:
overwriting a block's content while keeping its stored hash field does not
make verification fail (see the counterexample). -/
theorem c6_verify_no_recompute (st : GreenChain) (h : String) (i : Nat) (pd : Payload) :
    ((verify_certificate st h).1 = true ↔
      ∃ cid info, findByHash st.certificates h = some (cid, info) ∧
        cid ∉ st.retired_certificates ∧
        ∃ b, st.chain.get? info.block_index = some b ∧ b.hash = h) ∧
    verify_certificate
        { st with chain := updateAt st.chain i (fun bb => { bb with data := pd }) } h =
      verify_certificate st h := by
  constructor
  · cases hf : findByHash st.certificates h with
    | none =>
      simp only [verify_certificate, hf]
      constructor
      · intro hv
        cases hv
      · rintro ⟨cid, info, hfind, -⟩
        cases hfind
    | some p =>
      obtain ⟨cid, info⟩ := p
      by_cases hret : cid ∈ st.retired_certificates
      · simp only [verify_certificate, hf, if_pos hret]
        constructor
        · intro hv
          cases hv
        · rintro ⟨cid2, info2, hfind, hnr, -⟩
          cases hfind
          exact absurd hret hnr
      · cases hg : st.chain.get? info.block_index with
        | none =>
          simp only [verify_certificate, hf, if_neg hret, hg]
          constructor
          · intro hv
            cases hv
          · rintro ⟨cid2, info2, hfind, -, b, hbg, -⟩
            cases hfind
            rw [hg] at hbg
            cases hbg
        | some b =>
          by_cases hbh : b.hash = h
          · simp only [verify_certificate, hf, if_neg hret, hg, if_pos hbh]
            constructor
            · intro _
              exact ⟨cid, info, rfl, hret, b, hg, hbh⟩
            · intro _
              trivial
          · simp only [verify_certificate, hf, if_neg hret, hg, if_neg hbh]
            constructor
            · intro hv
              cases hv
            · rintro ⟨cid2, info2, hfind, -, b2, hbg, hbh2⟩
              cases hfind
              rw [hg] at hbg
              cases hbg
              exact absurd hbh2 hbh
  · cases hf : findByHash st.certificates h with
    | none => simp only [verify_certificate, hf]
    | some p =>
      obtain ⟨cid, info⟩ := p
      simp only [verify_certificate, hf]
      by_cases hret : cid ∈ st.retired_certificates
      · simp only [if_pos hret]
      · simp only [if_neg hret]
        by_cases hii : info.block_index = i
        · rw [hii, updateAt_get?_self]
          cases hg : st.chain.get? i with
          | none => rfl
          | some b =>
            rw [Option.map_some']
        · rw [updateAt_get?_other _ _ _ _ hii]

/-- C6 counterexample: in `c6Tampered` the recorded certificate block's
payload was overwritten while its stored hash field was kept; the
recomputed digest no longer matches the queried hash, yet
`verify_certificate` still returns valid — contradicting the claim that
such tampering makes it return false. -/
theorem c6_counterexample_tamper_not_detected :
    c6Tampered.chain.get? 1 = some c6Block ∧
    c6Block.hash = "0" ∧
    calculate_hash cexHashC6 c6Block ≠ "0" ∧
    (verify_certificate c6Tampered "0").1 = true := by
  exact ⟨by decide, rfl, by decide, by decide⟩
